import Mathlib

/-!
Shallow embedding of the GCSF TypeScript reference runner
(`runners/ts/runner.ts`): the data model (specification tree, resolved
cases, verdicts), the flattener (`flattenGroups`), the evaluator
(`runTest` / `run`) and the comparator (`compare`, `deepEqual`,
`approxEqual`, `approxEqualWithAbsTolerance`, `hasSpecialValues`).

Modelling choices, stated once here:
* JavaScript numbers are modelled as exact rationals extended with the
  special values `NaN`, `Infinity` and `-Infinity` (`JNum`).  Floating
  point rounding is out of scope; the comparison and control-flow logic
  of the runner is what is embedded.
* JSON-like runtime values are the tree type `Value`.  Objects keep
  their fields as an ordered association list, because `JSON.stringify`
  (used by strict mode) is sensitive to insertion order.  Reference
  identity (`===` on two distinct objects) cannot be observed by a pure
  tree model; `jsPrimEq` models `===` as primitive-value equality and
  lets composite values fall through to the structural branches, which
  yields the same results on tree values.
* `undefined`/field absence is modelled with `Option`; `JSON`-sourced
  documents never contain an explicitly-`undefined` key, so an object
  spread `{...parent, ...child}` is per-field `Option` coalescing.
* String rendering of non-integral numbers and string escaping in
  `JSON.stringify` are simplified (exact rendering of doubles is a
  floating-point concern); no claim depends on the rendering of a
  non-integral number or of a string containing escapes.
-/

set_option maxRecDepth 8000

namespace GCSF

/-- A JavaScript number: a finite rational or one of the IEEE special
values. -/
inductive JNum where
  | fin (q : ℚ)
  | nan
  | inf
  | negInf
deriving DecidableEq

/-- `isFinite(n)` for a JavaScript number. -/
def jIsFinite : JNum → Bool
  | .fin _ => true
  | _ => false

/-- `Math.abs` on a JavaScript number. -/
def jabs : JNum → JNum
  | .fin q => .fin (if q < 0 then -q else q)
  | .nan => .nan
  | .inf => .inf
  | .negInf => .inf

/-- IEEE subtraction `a - b` on JavaScript numbers. -/
def jsub : JNum → JNum → JNum
  | .nan, _ => .nan
  | _, .nan => .nan
  | .fin p, .fin q => .fin (p - q)
  | .inf, .inf => .nan
  | .inf, _ => .inf
  | .negInf, .negInf => .nan
  | .negInf, _ => .negInf
  | .fin _, .inf => .negInf
  | .fin _, .negInf => .inf

/-- IEEE multiplication of a JavaScript number by a finite rational
(the shape used in `Math.abs(b) * rel`, where `rel` comes from a JSON
tolerance and is finite). -/
def jmulQ : JNum → ℚ → JNum
  | .fin p, r => .fin (p * r)
  | .nan, _ => .nan
  | .inf, r => if 0 < r then .inf else if r < 0 then .negInf else .nan
  | .negInf, r => if 0 < r then .negInf else if r < 0 then .inf else .nan

/-- IEEE `a <= t` with a finite right-hand side (`NaN` compares false). -/
def jleQ : JNum → ℚ → Bool
  | .fin p, t => decide (p ≤ t)
  | .nan, _ => false
  | .inf, _ => false
  | .negInf, _ => true

/-- IEEE `a > t` with a finite right-hand side (`NaN` compares false). -/
def jgtQ : JNum → ℚ → Bool
  | .fin p, t => decide (t < p)
  | .nan, _ => false
  | .inf, _ => true
  | .negInf, _ => false

/-- IEEE `a > b` on JavaScript numbers (`NaN` compares false). -/
def jgtJ : JNum → JNum → Bool
  | .nan, _ => false
  | _, .nan => false
  | .fin p, .fin q => decide (q < p)
  | .inf, .inf => false
  | .inf, _ => true
  | .negInf, _ => false
  | .fin _, .inf => false
  | .fin _, .negInf => true

/-- `===` on two JavaScript numbers: `NaN` is not equal to anything,
including itself. -/
def numStrictEq : JNum → JNum → Bool
  | .fin p, .fin q => decide (p = q)
  | .inf, .inf => true
  | .negInf, .negInf => true
  | _, _ => false

/-- A JSON-like runtime value.  Object fields are an ordered
association list (insertion order matters for `JSON.stringify`). -/
inductive Value where
  | vNull
  | vBool (b : Bool)
  | vNum (n : JNum)
  | vStr (s : String)
  | vArr (elems : List Value)
  | vObj (fields : List (String × Value))

mutual

/-- Size measure used for termination of the recursive comparators.
`vNull` has size 0 so that the default result of a failed property
lookup is always smaller than any container. -/
def vSize : Value → Nat
  | .vNull => 0
  | .vBool _ => 1
  | .vNum _ => 1
  | .vStr _ => 1
  | .vArr xs => 2 + listVSize xs
  | .vObj fs => 2 + eSize fs

/-- Size of a list of values. -/
def listVSize : List Value → Nat
  | [] => 0
  | x :: r => 1 + vSize x + listVSize r

/-- Size of an entry list, ignoring the keys. -/
def eSize : List (String × Value) → Nat
  | [] => 0
  | (_, v) :: r => 1 + vSize v + eSize r

end

/-- `typeof` for our value type (`typeof null` is `"object"`). -/
def typeOf : Value → String
  | .vNull => "object"
  | .vBool _ => "boolean"
  | .vNum _ => "number"
  | .vStr _ => "string"
  | .vArr _ => "object"
  | .vObj _ => "object"

/-- Whether the value is `null` (the runner checks `a == null`). -/
def isNullV : Value → Bool
  | .vNull => true
  | _ => false

/-- Whether the value is a number (`typeof v === "number"`). -/
def isNumV : Value → Bool
  | .vNum _ => true
  | _ => false

/-- `===` as observable on tree values: primitive equality; two
composite values are referentially distinct in general, so the model
answers `false` and lets the caller fall through to its structural
branches (which is what the runner then computes). -/
def jsPrimEq : Value → Value → Bool
  | .vNull, .vNull => true
  | .vBool x, .vBool y => x == y
  | .vNum x, .vNum y => numStrictEq x y
  | .vStr x, .vStr y => x == y
  | _, _ => false

/-- The `Object.entries` view of an array: keys are decimal string
indices, as produced by `Object.keys` on a JavaScript array. -/
def arrEntries (i : Nat) : List Value → List (String × Value)
  | [] => []
  | x :: xs => (toString i, x) :: arrEntries (i + 1) xs

/-- The `Object.entries` view of a value: own enumerable properties in
insertion order.  Non-objects have none. -/
def objEntries : Value → List (String × Value)
  | .vObj fs => fs
  | .vArr xs => arrEntries 0 xs
  | _ => []

/-- `Object.keys v`. -/
def objKeys (v : Value) : List String := (objEntries v).map Prod.fst

/-- Property lookup `v[key]` on an entry list: first matching key.  A
missing key yields `undefined` in JavaScript; the callers below only
look up keys produced by `Object.keys`, so the default (`vNull`, chosen
for totality) is never reached on those paths. -/
def entriesGet (es : List (String × Value)) (k : String) : Value :=
  match es.find? (fun p => p.1 == k) with
  | some p => p.2
  | none => .vNull

/-- Lexicographic comparison of char lists by code point, the order
`Array.prototype.sort()` uses on string keys. -/
def charListLt : List Char → List Char → Bool
  | [], [] => false
  | [], _ :: _ => true
  | _ :: _, [] => false
  | c :: cs, d :: ds => c.toNat < d.toNat || (c.toNat == d.toNat && charListLt cs ds)

/-- String comparison for key sorting. -/
def strLtB (a b : String) : Bool := charListLt a.toList b.toList

/-- Insertion into a sorted list of keys. -/
def insertSorted (s : String) : List String → List String
  | [] => [s]
  | t :: ts => if strLtB t s then t :: insertSorted s ts else s :: t :: ts

/-- `keys.sort()`: sorted copy of the key list. -/
def sortStrings (l : List String) : List String := l.foldr insertSorted []

/-- `keysA.every((key, idx) => key === keysB[idx])`: element-wise key
equality (an out-of-range index reads `undefined` and compares false).
-/
def keysPairwiseEq : List String → List String → Bool
  | [], _ => true
  | _ :: _, [] => false
  | k :: ks, l :: ls => k == l && keysPairwiseEq ks ls

theorem eSize_arrEntries (i : Nat) (xs : List Value) :
    eSize (arrEntries i xs) = listVSize xs := by
  induction xs generalizing i with
  | nil => simp [arrEntries, eSize, listVSize]
  | cons x r ih => simp [arrEntries, eSize, listVSize, ih]

theorem vSize_entriesGet_lt (es : List (String × Value)) (k : String) :
    vSize (entriesGet es k) < 1 + eSize es := by
  induction es with
  | nil => simp [entriesGet, vSize, eSize]
  | cons p r ih =>
    by_cases h : p.1 == k
    · simp [entriesGet, List.find?, h, eSize]; omega
    · simp only [entriesGet, List.find?, h] at ih ⊢
      simp only [eSize]
      omega

theorem vSize_mem_list_lt (xs : List Value) (x : Value) (h : x ∈ xs) :
    vSize x < listVSize xs := by
  induction xs with
  | nil => cases h
  | cons y r ih =>
    rcases List.mem_cons.mp h with rfl | h'
    · simp [listVSize]; omega
    · have := ih h'
      simp [listVSize]; omega

mutual

/-- `deepEqual(a, b)` from the runner: `===` shortcut, null check,
`typeof` check, element-wise array comparison, then comparison of any
remaining pair of objects (which includes an array against a plain
object, since both have `typeof "object"`) by sorted key lists and
per-key recursion; any other pair is unequal. -/
def deepEqual (a b : Value) : Bool :=
  if jsPrimEq a b then true
  else if isNullV a || isNullV b then false
  else if !(typeOf a == typeOf b) then false
  else
    match a, b with
    | .vArr xs, .vArr ys =>
      if !(xs.length == ys.length) then false
      else deepEqualList xs ys
    | .vObj fa, .vObj fb => deepEqualEntriesCmp fa fb
    | .vObj fa, .vArr ys => deepEqualEntriesCmp fa (arrEntries 0 ys)
    | .vArr xs, .vObj fb => deepEqualEntriesCmp (arrEntries 0 xs) fb
    | _, _ => false
termination_by (vSize a, 1)
decreasing_by
  · simp only [vSize]; apply Prod.Lex.left; omega
  · simp only [vSize]; apply Prod.Lex.right; omega
  · simp only [vSize]; apply Prod.Lex.right; omega
  · simp only [vSize, eSize_arrEntries]; apply Prod.Lex.right; omega

/-- `a.every((val, idx) => deepEqual(val, b[idx]))`, entered only after
the length check. -/
def deepEqualList : List Value → List Value → Bool
  | [], _ => true
  | _ :: _, [] => false
  | x :: xs, y :: ys => deepEqual x y && deepEqualList xs ys
termination_by xs _ => (listVSize xs, 0)
decreasing_by
  · simp only [listVSize]; apply Prod.Lex.left; omega
  · simp only [listVSize]; apply Prod.Lex.left; omega

/-- The object branch of `deepEqual`, shared by the three object-like
pattern pairs: compare sorted key lists, then each key's values. -/
def deepEqualEntriesCmp (ea eb : List (String × Value)) : Bool :=
  let keysA := sortStrings (ea.map Prod.fst)
  let keysB := sortStrings (eb.map Prod.fst)
  if !(keysA.length == keysB.length) then false
  else if !(keysPairwiseEq keysA keysB) then false
  else deepEqualKeys keysA ea eb
termination_by (2 + eSize ea, 0)
decreasing_by
  · apply Prod.Lex.left; omega

/-- `keysA.every((key) => deepEqual(a[key], b[key]))`. -/
def deepEqualKeys (ks : List String) (ea eb : List (String × Value)) : Bool :=
  match ks with
  | [] => true
  | k :: rest => deepEqual (entriesGet ea k) (entriesGet eb k) && deepEqualKeys rest ea eb
termination_by (1 + eSize ea, ks.length)
decreasing_by
  · apply Prod.Lex.left; apply vSize_entriesGet_lt
  · apply Prod.Lex.right; simp

end

/-- A tolerance as it flows through the runner at run time: either a
bare number (absolute tolerance) or a structured object
`{abs?, rel?, fields?}`.  The TypeScript annotation types `fields`
values as numbers, but the runner performs no validation and passes
`fields[key]` straight back into `approxEqual`, so a field tolerance is
again a number or a structured object. -/
inductive Tolerance where
  | num (t : ℚ)
  | obj (abs rel : Option ℚ) (fields : Option (List (String × Tolerance)))

/-- Lookup `fields[key]` in a structured tolerance. -/
def lookupToleranceField (fs : List (String × Tolerance)) (k : String) : Option Tolerance :=
  (fs.find? (fun p => p.1 == k)).map Prod.snd

mutual

/-- `approxEqualWithAbsTolerance(a, b, tolerance)` with a numeric
tolerance: numbers pass iff `|a-b| <= tolerance`; two non-null values
of object type (arrays included, in any combination) are compared by
sorted key lists with the same tolerance per key; anything else falls
back to `deepEqual`. -/
def approxEqualWithAbsTolerance (a b : Value) (tolerance : ℚ) : Bool :=
  match a, b with
  | .vNum x, .vNum y => jleQ (jabs (jsub x y)) tolerance
  | .vObj fa, .vObj fb => approxAbsEntriesCmp fa fb tolerance
  | .vObj fa, .vArr ys => approxAbsEntriesCmp fa (arrEntries 0 ys) tolerance
  | .vArr xs, .vObj fb => approxAbsEntriesCmp (arrEntries 0 xs) fb tolerance
  | .vArr xs, .vArr ys => approxAbsEntriesCmp (arrEntries 0 xs) (arrEntries 0 ys) tolerance
  | x, y => deepEqual x y
termination_by (vSize a, 1)
decreasing_by
  · simp only [vSize]; apply Prod.Lex.right; omega
  · simp only [vSize]; apply Prod.Lex.right; omega
  · simp only [vSize, eSize_arrEntries]; apply Prod.Lex.right; omega
  · simp only [vSize, eSize_arrEntries]; apply Prod.Lex.right; omega

/-- The object branch of `approxEqualWithAbsTolerance`: sorted key
lists must agree, then every key recurses with the same tolerance. -/
def approxAbsEntriesCmp (ea eb : List (String × Value)) (tolerance : ℚ) : Bool :=
  let keysA := sortStrings (ea.map Prod.fst)
  let keysB := sortStrings (eb.map Prod.fst)
  if !(keysA.length == keysB.length) then false
  else if !(keysPairwiseEq keysA keysB) then false
  else approxAbsKeys keysA ea eb tolerance
termination_by (2 + eSize ea, 0)
decreasing_by
  · apply Prod.Lex.left; omega

/-- `keysA.every((key) => approxEqualWithAbsTolerance(a[key], b[key], tolerance))`. -/
def approxAbsKeys (ks : List String) (ea eb : List (String × Value)) (tolerance : ℚ) : Bool :=
  match ks with
  | [] => true
  | k :: rest =>
    approxEqualWithAbsTolerance (entriesGet ea k) (entriesGet eb k) tolerance
      && approxAbsKeys rest ea eb tolerance
termination_by (1 + eSize ea, ks.length)
decreasing_by
  · apply Prod.Lex.left; apply vSize_entriesGet_lt
  · apply Prod.Lex.right; simp

end

mutual

/-- `approxEqual(a, b, tolerance)`: a numeric tolerance delegates to
`approxEqualWithAbsTolerance`.  A structured tolerance compares two
numbers by its present bounds (each present bound must hold), compares
two non-null object-typed values per key with `fields[key] ??
tolerance` applied only when both field values are numbers (any other
field value pair falls back to `deepEqual`), and falls back to
`deepEqual` for every other pair. -/
def approxEqual (a b : Value) (tolerance : Tolerance) : Bool :=
  match tolerance with
  | .num t => approxEqualWithAbsTolerance a b t
  | .obj ab rl fields =>
    match a, b with
    | .vNum x, .vNum y =>
      if (match ab with
          | some t => jgtQ (jabs (jsub x y)) t
          | none => false) then false
      else if (match rl with
          | some r => jgtJ (jabs (jsub x y)) (jmulQ (jabs y) r)
          | none => false) then false
      else true
    | .vObj fa, .vObj fb => approxFieldsEntriesCmp fa fb fields (.obj ab rl fields)
    | .vObj fa, .vArr ys => approxFieldsEntriesCmp fa (arrEntries 0 ys) fields (.obj ab rl fields)
    | .vArr xs, .vObj fb => approxFieldsEntriesCmp (arrEntries 0 xs) fb fields (.obj ab rl fields)
    | .vArr xs, .vArr ys =>
      approxFieldsEntriesCmp (arrEntries 0 xs) (arrEntries 0 ys) fields (.obj ab rl fields)
    | x, y => deepEqual x y
termination_by (vSize a, 1)
decreasing_by
  · simp only [vSize]; apply Prod.Lex.right; omega
  · simp only [vSize]; apply Prod.Lex.right; omega
  · simp only [vSize, eSize_arrEntries]; apply Prod.Lex.right; omega
  · simp only [vSize, eSize_arrEntries]; apply Prod.Lex.right; omega

/-- The object branch of `approxEqual` with a structured tolerance:
sorted key lists must agree, then every key is compared with its field
tolerance. -/
def approxFieldsEntriesCmp (ea eb : List (String × Value))
    (fields : Option (List (String × Tolerance))) (tolerance : Tolerance) : Bool :=
  let keysA := sortStrings (ea.map Prod.fst)
  let keysB := sortStrings (eb.map Prod.fst)
  if !(keysA.length == keysB.length) then false
  else if !(keysPairwiseEq keysA keysB) then false
  else approxFieldsKeys keysA ea eb fields tolerance
termination_by (2 + eSize ea, 0)
decreasing_by
  · apply Prod.Lex.left; omega

/-- Per-key comparison with `fields?.[key] ?? tolerance`: tolerance is
applied when both field values are numbers, otherwise the field falls
back to exact `deepEqual`. -/
def approxFieldsKeys (ks : List String) (ea eb : List (String × Value))
    (fields : Option (List (String × Tolerance))) (tolerance : Tolerance) : Bool :=
  match ks with
  | [] => true
  | k :: rest =>
    (let fieldTolerance :=
      match fields with
      | some fs =>
        match lookupToleranceField fs k with
        | some ft => ft
        | none => tolerance
      | none => tolerance
     if isNumV (entriesGet ea k) && isNumV (entriesGet eb k) then
       approxEqual (entriesGet ea k) (entriesGet eb k) fieldTolerance
     else deepEqual (entriesGet ea k) (entriesGet eb k))
      && approxFieldsKeys rest ea eb fields tolerance
termination_by (1 + eSize ea, ks.length)
decreasing_by
  · apply Prod.Lex.left; apply vSize_entriesGet_lt
  · apply Prod.Lex.right; simp

end

/-- Rendering of a number by `JSON.stringify`: the special values
render as `null`; integers render as decimal numerals; the rendering of
non-integral rationals is a modelling simplification (doubles render in
shortest-round-trip decimal, a floating-point concern no claim depends
on). -/
def stringifyNum : JNum → String
  | .fin q => if q.den = 1 then toString q.num else toString q.num ++ "/" ++ toString q.den
  | .nan => "null"
  | .inf => "null"
  | .negInf => "null"

mutual

/-- `JSON.stringify` on a value (string escaping elided: no claim
involves a string needing escapes). -/
def stringify : Value → String
  | .vNull => "null"
  | .vBool b => cond b "true" "false"
  | .vNum n => stringifyNum n
  | .vStr s => "\"" ++ s ++ "\""
  | .vArr xs => "[" ++ String.intercalate "," (stringifyElems xs) ++ "]"
  | .vObj fs => "\x7b" ++ String.intercalate "," (stringifyFields fs) ++ "\x7d"
termination_by v => vSize v
decreasing_by
  · simp only [vSize]; omega
  · simp only [vSize]; omega

/-- Rendered elements of an array. -/
def stringifyElems : List Value → List String
  | [] => []
  | x :: xs => stringify x :: stringifyElems xs
termination_by xs => listVSize xs
decreasing_by
  · simp only [listVSize]; omega
  · simp only [listVSize]; omega

/-- Rendered `"key":value` pairs of an object, in insertion order. -/
def stringifyFields : List (String × Value) → List String
  | [] => []
  | (k, v) :: fs => ("\"" ++ k ++ "\":" ++ stringify v) :: stringifyFields fs
termination_by fs => eSize fs
decreasing_by
  · simp only [eSize]; omega
  · simp only [eSize]; omega

end

mutual

/-- `hasSpecialValues(value)`: a number is special iff not finite; a
non-null value of object type recurses through `Object.values` (which
covers arrays as well, making the runner's explicit `Array.isArray`
branch unreachable); everything else has none. -/
def hasSpecialValues : Value → Bool
  | .vNum n => !(jIsFinite n)
  | .vObj fs => hasSpecialFields fs
  | .vArr xs => hasSpecialElems xs
  | _ => false
termination_by v => vSize v
decreasing_by
  · simp only [vSize]; omega
  · simp only [vSize]; omega

/-- `Object.values(obj).some(hasSpecialValues)`. -/
def hasSpecialFields : List (String × Value) → Bool
  | [] => false
  | (_, v) :: r => hasSpecialValues v || hasSpecialFields r
termination_by fs => eSize fs
decreasing_by
  · simp only [eSize]; omega
  · simp only [eSize]; omega

/-- `Object.values(arr).some(hasSpecialValues)` (the values of an array
are its elements). -/
def hasSpecialElems : List Value → Bool
  | [] => false
  | x :: r => hasSpecialValues x || hasSpecialElems r
termination_by xs => listVSize xs
decreasing_by
  · simp only [listVSize]; omega
  · simp only [listVSize]; omega

end

/-- The three compare modes. -/
inductive CompareMode where
  | strict
  | deep
  | approx
deriving DecidableEq

/-- `compare(actual, expected, mode, tolerance?)`.  Strict mode is
`JSON.stringify` text equality; deep mode is `deepEqual`; approx mode
uses `approxEqual` with the tolerance, which the source asserts non-null
(`tolerance!`) — `runTest` only reaches the approx branch with a present
tolerance, so the `none` case (modelled as `false`) is unreachable from
`runTest`. -/
def compare (actual expected : Value) (mode : CompareMode)
    (tolerance : Option Tolerance) : Bool :=
  match mode with
  | .strict => stringify actual == stringify expected
  | .deep => deepEqual actual expected
  | .approx =>
    match tolerance with
    | some t => approxEqual actual expected t
    | none => false

/-- The `Defaults` object: both fields optional. -/
structure Defaults where
  compare : Option CompareMode
  tolerance : Option Tolerance

/-- A test case as parsed from the spec document.  `xfail` is a Bool
because the runner only uses its truthiness (absent and `false`
coincide); `skip` is an optional string whose truthiness (present and
non-empty) the runner tests. -/
structure Test where
  id : String
  op : String
  input : Value
  expected : Value
  compare : Option CompareMode
  tolerance : Option Tolerance
  xfail : Bool
  skip : Option String

/-- A group: name, optional defaults, optional child groups, optional
tests. -/
inductive Group where
  | mk (group : String) (defaults : Option Defaults)
      (groups : Option (List Group)) (tests : Option (List Test))

/-- The group name. -/
def Group.name : Group → String
  | .mk n _ _ _ => n

/-- The group defaults. -/
def Group.defaults : Group → Option Defaults
  | .mk _ d _ _ => d

/-- The child groups. -/
def Group.childGroups : Group → Option (List Group)
  | .mk _ _ g _ => g

/-- The tests of the group. -/
def Group.tests : Group → Option (List Test)
  | .mk _ _ _ t => t

/-- The root specification document. -/
structure Spec where
  spec : String
  version : String
  defaults : Option Defaults
  groups : List Group

/-- A flattened, fully resolved test. -/
structure FlatTest extends Test where
  groupPath : List String
  resolvedCompare : CompareMode
  resolvedTolerance : Option Tolerance

/-- Verdict statuses. -/
inductive Status where
  | PASS
  | FAIL
  | SKIP
  | ERROR
deriving DecidableEq

/-- A per-case result. -/
structure TestResult where
  test : FlatTest
  status : Status
  message : Option String
  actual : Option Value

/-- JavaScript `??` on optional values: the left operand if present,
else the right. -/
def coalesce {α : Type} : Option α → Option α → Option α
  | some x, _ => some x
  | none, b => b

/-- `{...parentDefaults, ...group.defaults}`: per-field override, the
group's own present fields winning.  (On JSON-sourced data a spread
override is exactly per-field presence coalescing.) -/
def mergeDefaults (parentDefaults : Option Defaults) (groupDefaults : Option Defaults) :
    Defaults where
  compare := coalesce (groupDefaults.bind Defaults.compare) (parentDefaults.bind Defaults.compare)
  tolerance :=
    coalesce (groupDefaults.bind Defaults.tolerance) (parentDefaults.bind Defaults.tolerance)

/-- Resolution of one test under the merged defaults of its group:
`test.compare || mergedDefaults?.compare || "strict"` (the compare
modes are non-empty strings, so `||` is presence coalescing) and
`test.tolerance ?? mergedDefaults?.tolerance`. -/
def resolveTest (t : Test) (currentPath : List String) (mergedDefaults : Defaults) :
    FlatTest where
  toTest := t
  groupPath := currentPath
  resolvedCompare := (coalesce t.compare mergedDefaults.compare).getD .strict
  resolvedTolerance := coalesce t.tolerance mergedDefaults.tolerance

/-- `flattenGroups(groups, groupPath, parentDefaults)`: for each group
in order, resolve nested groups first (with the extended path and
merged defaults), then the group's own tests. -/
def flattenGroups (groups : List Group) (groupPath : List String)
    (parentDefaults : Option Defaults) : List FlatTest :=
  match groups with
  | [] => []
  | g :: rest =>
    (match h : g.childGroups with
     | some gs => flattenGroups gs (groupPath ++ [g.name]) (some (mergeDefaults parentDefaults g.defaults))
     | none => [])
    ++ (match g.tests with
        | some ts => ts.map (fun t => resolveTest t (groupPath ++ [g.name]) (mergeDefaults parentDefaults g.defaults))
        | none => [])
    ++ flattenGroups rest groupPath parentDefaults
termination_by sizeOf groups
decreasing_by
  · cases g with
    | mk n d og ot =>
      simp only [Group.childGroups] at h
      subst h
      simp
      omega
  · simp

/-- Truthiness of an optional string: present and non-empty. -/
def jsTruthy : Option String → Bool
  | none => false
  | some s => !(s == "")

/-- An apostrophe character, used in runner messages. -/
def apos : String := String.singleton (Char.ofNat 39)

/-- The message for a missing operation. -/
def msgOpNotFound (op : String) : String :=
  "Operation " ++ apos ++ op ++ apos ++ " not found in implementation"

/-- The fixed special-value message. -/
def msgSpecial : String := "Implementation returned NaN or Infinity (forbidden in GCSF v1)"

/-- The fixed missing-tolerance message. -/
def msgToleranceRequired : String := "compare=\"approx\" requires tolerance to be set"

/-- `runTest(test)` against an implementation registry.  The registry
maps operation names to fallible functions; a thrown exception is the
`Except.error` case carrying `error.message`. -/
def runTest (implementation : String → Option (Value → Except String Value))
    (t : FlatTest) : TestResult :=
  if jsTruthy t.skip then
    { test := t, status := .SKIP, message := t.skip, actual := none }
  else
    match implementation t.op with
    | none =>
      { test := t, status := .ERROR, message := some (msgOpNotFound t.op), actual := none }
    | some opFunc =>
      match opFunc t.input with
      | .error e =>
        { test := t, status := .ERROR, message := some ("Exception: " ++ e), actual := none }
      | .ok actual =>
        if hasSpecialValues actual then
          { test := t, status := .ERROR, message := some msgSpecial, actual := some actual }
        else if decide (t.resolvedCompare = .approx) && t.resolvedTolerance.isNone then
          { test := t, status := .ERROR, message := some msgToleranceRequired, actual := none }
        else
          let matched := compare actual t.expected t.resolvedCompare t.resolvedTolerance
          let status := if t.xfail then (if matched then Status.FAIL else Status.PASS)
            else (if matched then Status.PASS else Status.FAIL)
          { test := t, status := status,
            message := if status = Status.FAIL then
                some ("Expected " ++ stringify t.expected ++ ", got " ++ stringify actual)
              else none,
            actual := some actual }

/-- `run()`: flatten the spec, then evaluate every resolved case in
order, one result per case. -/
def run (implementation : String → Option (Value → Except String Value))
    (s : Spec) : List TestResult :=
  (flattenGroups s.groups [] s.defaults).map (runTest implementation)

/-- A descending chain of groups: the first element is drawn from the
given group list, each later element from its predecessor's child
groups.  A resolved case's ancestors form such a chain. -/
inductive Chain : List Group → List Group → Prop where
  | single (g : Group) (gs : List Group) : g ∈ gs → Chain gs [g]
  | cons (g : Group) (gs sub c : List Group) :
      g ∈ gs → g.childGroups = some sub → Chain sub c → Chain gs (g :: c)

/-- The test `t` is a direct test of the last group of the chain. -/
def ChainTest (c : List Group) (t : Test) : Prop :=
  ∃ gl ts, c.getLast? = some gl ∧ gl.tests = some ts ∧ t ∈ ts

/-- The defaults object the flattener has accumulated after walking
down a chain of groups from the given inherited defaults. -/
def mergeAlong (pd : Option Defaults) : List Group → Option Defaults
  | [] => pd
  | g :: c => mergeAlong (some (mergeDefaults pd g.defaults)) c

/-- The compare mode of the nearest (deepest) group in the chain whose
defaults carry one. -/
def nearestCompare : List Group → Option CompareMode
  | [] => none
  | g :: c => coalesce (nearestCompare c) (g.defaults.bind Defaults.compare)

/-- The tolerance of the nearest (deepest) group in the chain whose
defaults carry one. -/
def nearestTolerance : List Group → Option Tolerance
  | [] => none
  | g :: c => coalesce (nearestTolerance c) (g.defaults.bind Defaults.tolerance)

/-- Modelled from the spec: a value contains, at some depth (through
arrays and objects), a numeric leaf that is not finite. -/
inductive ContainsNonFinite : Value → Prop where
  | num (n : JNum) : jIsFinite n = false → ContainsNonFinite (.vNum n)
  | arr (xs : List Value) (v : Value) :
      v ∈ xs → ContainsNonFinite v → ContainsNonFinite (.vArr xs)
  | obj (fs : List (String × Value)) (k : String) (v : Value) :
      (k, v) ∈ fs → ContainsNonFinite v → ContainsNonFinite (.vObj fs)

/-- A registry with no operations. -/
def implNone : String → Option (Value → Except String Value) := fun _ => none

/-- A registry whose every operation returns `{x: Infinity}`. -/
def implInf : String → Option (Value → Except String Value) :=
  fun _ => some (fun _ => .ok (.vObj [("x", .vNum .inf)]))

/-- A registry whose every operation returns the number 5. -/
def implFive : String → Option (Value → Except String Value) :=
  fun _ => some (fun _ => .ok (.vNum (.fin 5)))

/-- A registry whose every operation throws. -/
def implBoom : String → Option (Value → Except String Value) :=
  fun _ => some (fun _ => .error "boom")

/-- A minimal test case used by concrete witnesses. -/
def exTestBase : Test :=
  { id := "t", op := "add", input := .vNull, expected := .vNull,
    compare := none, tolerance := none, xfail := false, skip := none }

/-- A resolved case whose skip reason is the empty string. -/
def exFtSkipEmpty : FlatTest :=
  { toTest := { exTestBase with skip := some "" }, groupPath := [],
    resolvedCompare := .strict, resolvedTolerance := none }

/-- A resolved case with a non-empty skip reason. -/
def exFtSkipReason : FlatTest :=
  { toTest := { exTestBase with skip := some "not yet" }, groupPath := [],
    resolvedCompare := .strict, resolvedTolerance := none }

/-- A resolved case whose expected value is `{x: Infinity}`. -/
def exFtInf : FlatTest :=
  { toTest := { exTestBase with op := "divide", expected := .vObj [("x", .vNum .inf)] },
    groupPath := [], resolvedCompare := .strict, resolvedTolerance := none }

/-- A resolved case in approx mode without a tolerance, whose expected
value equals what `implFive` produces. -/
def exFtApproxNoTol : FlatTest :=
  { toTest := { exTestBase with expected := .vNum (.fin 5) }, groupPath := [],
    resolvedCompare := .approx, resolvedTolerance := none }

/-- A plain strict-mode resolved case. -/
def exFtPlain : FlatTest :=
  { toTest := exTestBase, groupPath := [],
    resolvedCompare := .strict, resolvedTolerance := none }

/-- An inner group holding one test. -/
def exInner : Group := .mk "inner" none none (some [{ exTestBase with id := "c1" }])

/-- An outer group with deep-mode defaults, one child group and one
direct test. -/
def exOuter : Group :=
  .mk "outer" (some ⟨some .deep, none⟩) (some [exInner]) (some [{ exTestBase with id := "c0" }])

theorem coalesce_assoc {α : Type} (a b c : Option α) :
    coalesce (coalesce a b) c = coalesce a (coalesce b c) := by
  cases a <;> rfl

theorem jabs_fin (q : ℚ) : jabs (.fin q) = .fin |q| := by
  rw [jabs]
  congr 1
  rcases lt_or_ge q 0 with h | h
  · rw [if_pos h, abs_of_neg h]
  · rw [if_neg (not_lt.mpr h), abs_of_nonneg h]

theorem approxEqual_fin_obj (a b ab rl : ℚ) (fs : Option (List (String × Tolerance))) :
    approxEqual (.vNum (.fin a)) (.vNum (.fin b)) (.obj (some ab) (some rl) fs)
      = (decide (|a - b| ≤ ab) && decide (|a - b| ≤ |b| * rl)) := by
  rw [approxEqual]
  simp only [jsub, jabs_fin, jmulQ, jgtQ, jgtJ]
  by_cases h1 : |a - b| ≤ ab <;> by_cases h2 : |a - b| ≤ |b| * rl <;>
    simp [h1, h2, not_le.mp, not_le]

/-- C1: the claim asserts either-sufficient semantics for a structured
tolerance with both bounds present; the runner instead fails as soon as
any present bound is violated.  Concretely with `a = 3`, `b = 1`,
`abs = 5`, `rel = 1`: the absolute bound holds (`|3-1| = 2 <= 5`), yet
the comparison is false because the relative bound (`2 <= |1|*1`) is
violated. -/
theorem claim_C1_counterexample :
    (|(3 : ℚ) - 1| ≤ 5)
    ∧ approxEqual (.vNum (.fin 3)) (.vNum (.fin 1)) (.obj (some 5) (some 1) none) = false := by
  constructor
  · rw [show ((3 : ℚ) - 1) = 2 by norm_num, abs_of_nonneg (by norm_num : (0:ℚ) ≤ 2)]
    norm_num
  · rw [approxEqual_fin_obj]
    rw [show ((3 : ℚ) - 1) = 2 by norm_num, abs_of_nonneg (by norm_num : (0:ℚ) ≤ 2),
      abs_of_nonneg (by norm_num : (0:ℚ) ≤ 1)]
    norm_num

/-- C1 (amended): for two numbers compared under approx mode against a
structured tolerance with both `abs` and `rel` present, the comparison
passes iff every present bound holds — `|a-b| <= abs` AND
`|a-b| <= |b| * rel`; violating either present bound alone is fatal. -/
theorem claim_C1 (a b ab rl : ℚ) (fs : Option (List (String × Tolerance))) :
    approxEqual (.vNum (.fin a)) (.vNum (.fin b)) (.obj (some ab) (some rl) fs)
      = (decide (|a - b| ≤ ab) && decide (|a - b| ≤ |b| * rl)) :=
  approxEqual_fin_obj a b ab rl fs

theorem arrEntries_pair (x y : Value) :
    arrEntries 0 [x, y] = [("0", x), ("1", y)] := by rfl

theorem stringifyNum_fin_one : stringifyNum (.fin 1) = "1" := by rfl

theorem stringifyNum_fin_two : stringifyNum (.fin 2) = "2" := by rfl

set_option maxHeartbeats 1000000 in
/-- C8: strict mode is equality of the serialized texts, so key order
matters: `{a:1,b:2}` strict-equals itself but strict-mismatches
`{b:2,a:1}`, while deep mode treats the two as equal. -/
theorem claim_C8 :
    (∀ a b tol, compare a b .strict tol = (stringify a == stringify b))
    ∧ compare (.vObj [("a", .vNum (.fin 1)), ("b", .vNum (.fin 2))])
        (.vObj [("a", .vNum (.fin 1)), ("b", .vNum (.fin 2))]) .strict none = true
    ∧ compare (.vObj [("a", .vNum (.fin 1)), ("b", .vNum (.fin 2))])
        (.vObj [("b", .vNum (.fin 2)), ("a", .vNum (.fin 1))]) .strict none = false
    ∧ compare (.vObj [("a", .vNum (.fin 1)), ("b", .vNum (.fin 2))])
        (.vObj [("b", .vNum (.fin 2)), ("a", .vNum (.fin 1))]) .deep none = true := by
  refine ⟨fun a b tol => rfl, ?_, ?_, ?_⟩
  · simp only [compare]
    rw [beq_self_eq_true]
  · simp only [compare, stringify.eq_def, stringifyFields.eq_def,
      stringifyNum_fin_one, stringifyNum_fin_two]
    decide
  · simp only [compare]
    simp [deepEqual.eq_def, deepEqualEntriesCmp.eq_def, deepEqualKeys.eq_def,
      jsPrimEq, numStrictEq, isNullV, typeOf, sortStrings, insertSorted,
      strLtB, charListLt, objEntries, entriesGet, List.find?, keysPairwiseEq]

set_option maxHeartbeats 1000000 in
/-- C10: `deepEqual` compares any two non-null object-typed values
that are not both arrays by their enumerable keys and values, so the
array `[1,2]` deep-equals the plain object `{"0":1,"1":2}`, while
strict mode distinguishes them. -/
theorem claim_C10 :
    deepEqual (.vArr [.vNum (.fin 1), .vNum (.fin 2)])
      (.vObj [("0", .vNum (.fin 1)), ("1", .vNum (.fin 2))]) = true
    ∧ compare (.vArr [.vNum (.fin 1), .vNum (.fin 2)])
        (.vObj [("0", .vNum (.fin 1)), ("1", .vNum (.fin 2))]) .strict none = false := by
  constructor
  · simp [deepEqual.eq_def, deepEqualEntriesCmp.eq_def, deepEqualKeys.eq_def,
      jsPrimEq, numStrictEq, isNullV, typeOf, sortStrings, insertSorted,
      strLtB, charListLt, objEntries, arrEntries_pair, entriesGet, List.find?, keysPairwiseEq]
  · simp only [compare, stringify.eq_def, stringifyFields.eq_def, stringifyElems.eq_def,
      stringifyNum_fin_one, stringifyNum_fin_two]
    decide

/-- C5: the claim says any present (non-absent) skip string yields
SKIP even when the operation is missing; but the runner tests the
string's truthiness, so an empty-string skip reason does not skip: with
`skip: ""` and a missing operation the verdict is ERROR, not SKIP. -/
theorem claim_C5_counterexample :
    exFtSkipEmpty.skip = some ""
    ∧ (runTest implNone exFtSkipEmpty).status = .ERROR
    ∧ (runTest implNone exFtSkipEmpty).status ≠ .SKIP := by
  exact ⟨rfl, rfl, by decide⟩

/-- C5 (amended): for every resolved case whose skip field is present
and non-empty, the evaluator produces a SKIP verdict whose message is
the skip reason and never invokes any operation — the result is the
same for every registry, including one where the named operation is
missing; a present but empty skip reason is treated as absent. -/
theorem claim_C5 (impl : String → Option (Value → Except String Value)) (t : FlatTest)
    (s : String) (hs : t.skip = some s) (hne : s ≠ "") :
    runTest impl t = { test := t, status := .SKIP, message := t.skip, actual := none } := by
  simp [runTest, jsTruthy, hs, hne]

theorem claim_C5_witness :
    exFtSkipReason.skip = some "not yet" ∧ "not yet" ≠ ""
    ∧ runTest implNone exFtSkipReason
        = { test := exFtSkipReason, status := .SKIP, message := some "not yet", actual := none } :=
  ⟨rfl, by decide, claim_C5 implNone exFtSkipReason "not yet" rfl (by decide)⟩

theorem hasSpecialValues_vNull : hasSpecialValues .vNull = false := by
  rw [hasSpecialValues.eq_def]

theorem hasSpecialValues_vBool (b : Bool) : hasSpecialValues (.vBool b) = false := by
  rw [hasSpecialValues.eq_def]

theorem hasSpecialValues_vStr (s : String) : hasSpecialValues (.vStr s) = false := by
  rw [hasSpecialValues.eq_def]

theorem hasSpecialValues_vNum (n : JNum) : hasSpecialValues (.vNum n) = !(jIsFinite n) := by
  rw [hasSpecialValues]

theorem hasSpecialValues_vArr (xs : List Value) :
    hasSpecialValues (.vArr xs) = hasSpecialElems xs := by
  rw [hasSpecialValues]

theorem hasSpecialValues_vObj (fs : List (String × Value)) :
    hasSpecialValues (.vObj fs) = hasSpecialFields fs := by
  rw [hasSpecialValues]

theorem hasSpecialElems_nil : hasSpecialElems [] = false := by
  rw [hasSpecialElems.eq_def]

theorem hasSpecialElems_cons (x : Value) (r : List Value) :
    hasSpecialElems (x :: r) = (hasSpecialValues x || hasSpecialElems r) := by
  rw [hasSpecialElems.eq_def]

theorem hasSpecialFields_nil : hasSpecialFields [] = false := by
  rw [hasSpecialFields.eq_def]

theorem hasSpecialFields_cons (p : String × Value) (r : List (String × Value)) :
    hasSpecialFields (p :: r) = (hasSpecialValues p.2 || hasSpecialFields r) := by
  rw [hasSpecialFields.eq_def]

theorem hasSpecialElems_iff (xs : List Value) :
    hasSpecialElems xs = true ↔ ∃ v ∈ xs, hasSpecialValues v = true := by
  induction xs with
  | nil => simp [hasSpecialElems_nil]
  | cons x r ih => simp [hasSpecialElems_cons, ih]

theorem hasSpecialFields_iff (fs : List (String × Value)) :
    hasSpecialFields fs = true ↔ ∃ p ∈ fs, hasSpecialValues p.2 = true := by
  induction fs with
  | nil => simp [hasSpecialFields_nil]
  | cons p r ih => simp [hasSpecialFields_cons, ih]

theorem vSize_mem_entries_lt (fs : List (String × Value)) (p : String × Value)
    (h : p ∈ fs) : vSize p.2 < eSize fs := by
  induction fs with
  | nil => cases h
  | cons q r ih =>
    rcases List.mem_cons.mp h with rfl | h'
    · simp only [eSize]
      omega
    · have := ih h'
      rcases q with ⟨k, v⟩
      simp only [eSize]
      omega

theorem hasSpecial_iff_contains (v : Value) :
    hasSpecialValues v = true ↔ ContainsNonFinite v := by
  suffices H : ∀ n v, vSize v ≤ n → (hasSpecialValues v = true ↔ ContainsNonFinite v) from
    H (vSize v) v le_rfl
  intro n
  induction n with
  | zero =>
    intro v hv
    cases v <;> simp only [vSize] at hv <;> try omega
    · refine ⟨fun h => ?_, fun h => by cases h⟩
      rw [hasSpecialValues_vNull] at h
      cases h
  | succ n ih =>
    intro v hv
    cases v with
    | vNull =>
      refine ⟨fun h => ?_, fun h => by cases h⟩
      rw [hasSpecialValues_vNull] at h
      cases h
    | vBool b =>
      refine ⟨fun h => ?_, fun h => by cases h⟩
      rw [hasSpecialValues_vBool] at h
      cases h
    | vStr s =>
      refine ⟨fun h => ?_, fun h => by cases h⟩
      rw [hasSpecialValues_vStr] at h
      cases h
    | vNum m =>
      rw [hasSpecialValues_vNum]
      refine ⟨fun h => .num m (by simpa using h), fun h => ?_⟩
      cases h with
      | num _ hf => simp [hf]
    | vArr xs =>
      rw [hasSpecialValues_vArr, hasSpecialElems_iff]
      simp only [vSize] at hv
      constructor
      · rintro ⟨w, hw, hs⟩
        have hlt := vSize_mem_list_lt xs w hw
        exact .arr xs w hw ((ih w (by omega)).mp hs)
      · rintro h
        cases h with
        | arr _ w hw hc =>
          have hlt := vSize_mem_list_lt xs w hw
          exact ⟨w, hw, (ih w (by omega)).mpr hc⟩
    | vObj fs =>
      rw [hasSpecialValues_vObj, hasSpecialFields_iff]
      simp only [vSize] at hv
      constructor
      · rintro ⟨p, hp, hs⟩
        have hlt := vSize_mem_entries_lt fs p hp
        exact .obj fs p.1 p.2 (by simpa using hp) ((ih p.2 (by omega)).mp hs)
      · rintro h
        cases h with
        | obj _ k w hw hc =>
          have hlt : vSize w < eSize fs := by simpa using vSize_mem_entries_lt fs (k, w) hw
          exact ⟨(k, w), hw, (ih w (by omega)).mpr hc⟩

/-- C6: the runner's special-value check agrees with "contains a
non-finite numeric leaf at some depth", and for every non-skipped case
whose invocation succeeds with such an output the verdict is ERROR with
the fixed forbidden-special-value message — for every expected value
and compare mode, so in particular even when the expected value
contains the same non-finite number. -/
theorem claim_C6 :
    (∀ v, hasSpecialValues v = true ↔ ContainsNonFinite v)
    ∧ (∀ impl t f actual, jsTruthy t.skip = false → impl t.op = some f →
        f t.input = Except.ok actual → hasSpecialValues actual = true →
        runTest impl t = { test := t, status := .ERROR, message := some msgSpecial,
                           actual := some actual }) := by
  refine ⟨hasSpecial_iff_contains, ?_⟩
  intro impl t f actual h1 h2 h3 h4
  simp [runTest, h1, h2, h3, h4]

theorem claim_C6_witness :
    jsTruthy exFtInf.skip = false
    ∧ exFtInf.expected = Value.vObj [("x", .vNum .inf)]
    ∧ hasSpecialValues (.vObj [("x", .vNum .inf)]) = true
    ∧ runTest implInf exFtInf
        = { test := exFtInf, status := .ERROR, message := some msgSpecial,
            actual := some (.vObj [("x", .vNum .inf)]) } := by
  have hs : hasSpecialValues (.vObj [("x", .vNum .inf)]) = true := by
    simp [hasSpecialValues_vObj, hasSpecialFields_cons, hasSpecialFields_nil,
      hasSpecialValues_vNum, jIsFinite]
  exact ⟨rfl, rfl, hs,
    claim_C6.2 implInf exFtInf (fun _ => .ok (.vObj [("x", .vNum .inf)]))
      (.vObj [("x", .vNum .inf)]) rfl rfl rfl hs⟩

/-- C7: for a non-skipped case whose operation exists and returns a
special-value-free output, approx mode with an absent tolerance is
ERROR with the fixed tolerance-required message — for every expected
value, in particular when the output equals the expected value. -/
theorem claim_C7 (impl : String → Option (Value → Except String Value)) (t : FlatTest)
    (f : Value → Except String Value) (actual : Value)
    (h1 : jsTruthy t.skip = false) (h2 : impl t.op = some f)
    (h3 : f t.input = Except.ok actual) (h4 : hasSpecialValues actual = false)
    (h5 : t.resolvedCompare = .approx) (h6 : t.resolvedTolerance = none) :
    runTest impl t = { test := t, status := .ERROR, message := some msgToleranceRequired,
                       actual := none } := by
  simp [runTest, h1, h2, h3, h4, h5, h6]

theorem claim_C7_witness :
    exFtApproxNoTol.expected = Value.vNum (.fin 5)
    ∧ implFive exFtApproxNoTol.op = some (fun _ => .ok (.vNum (.fin 5)))
    ∧ exFtApproxNoTol.resolvedCompare = .approx
    ∧ exFtApproxNoTol.resolvedTolerance = none
    ∧ runTest implFive exFtApproxNoTol
        = { test := exFtApproxNoTol, status := .ERROR,
            message := some msgToleranceRequired, actual := none } :=
  ⟨rfl, rfl, rfl, rfl,
    claim_C7 implFive exFtApproxNoTol (fun _ => .ok (.vNum (.fin 5))) (.vNum (.fin 5))
      rfl rfl rfl (by simp [hasSpecialValues_vNum, jIsFinite]) rfl rfl⟩

/-- C9: a failing invocation yields an ERROR verdict whose message
preserves the failure's description and whose actual output is absent;
`run` is the per-case map of `runTest` over the flattened cases, so
every case yields exactly one verdict and the run continues past any
case regardless of its outcome (the engine is a total function and
never raises). -/
theorem claim_C9 :
    (∀ impl t f e, jsTruthy t.skip = false → impl t.op = some f →
        f t.input = Except.error e →
        runTest impl t
          = { test := t, status := .ERROR, message := some ("Exception: " ++ e),
              actual := none })
    ∧ (∀ impl s, run impl s = (flattenGroups s.groups [] s.defaults).map (runTest impl))
    ∧ (∀ impl s, (run impl s).length = (flattenGroups s.groups [] s.defaults).length) := by
  refine ⟨?_, fun _ _ => rfl, fun _ _ => by simp [run]⟩
  intro impl t f e h1 h2 h3
  simp [runTest, h1, h2, h3]

theorem claim_C9_witness :
    implBoom exFtPlain.op = some (fun _ => .error "boom")
    ∧ jsTruthy exFtPlain.skip = false
    ∧ runTest implBoom exFtPlain
        = { test := exFtPlain, status := .ERROR,
            message := some ("Exception: " ++ "boom"), actual := none } :=
  ⟨rfl, rfl, claim_C9.1 implBoom exFtPlain (fun _ => .error "boom") "boom" rfl rfl rfl⟩

theorem chain_ne_nil {gs c : List Group} (h : Chain gs c) : c ≠ [] := by
  cases h <;> simp

theorem chain_weaken {gs c : List Group} (g0 : Group) (h : Chain gs c) :
    Chain (g0 :: gs) c := by
  cases h with
  | single g gs hg => exact .single g _ (List.mem_cons_of_mem g0 hg)
  | cons g gs sub c hg hs hc => exact .cons g _ sub c (List.mem_cons_of_mem g0 hg) hs hc

theorem getLast?_cons_of_ne_nil {α : Type} (a : α) {l : List α} (h : l ≠ []) :
    (a :: l).getLast? = l.getLast? := by
  cases l with
  | nil => exact absurd rfl h
  | cons b m => rfl

theorem mergeAlong_compare (c : List Group) :
    ∀ pd, (mergeAlong pd c).bind Defaults.compare
      = coalesce (nearestCompare c) (pd.bind Defaults.compare) := by
  induction c with
  | nil => intro pd; rfl
  | cons g c ih =>
    intro pd
    show (mergeAlong (some (mergeDefaults pd g.defaults)) c).bind _ = _
    rw [ih, nearestCompare, coalesce_assoc]
    rfl

theorem mergeAlong_tolerance (c : List Group) :
    ∀ pd, (mergeAlong pd c).bind Defaults.tolerance
      = coalesce (nearestTolerance c) (pd.bind Defaults.tolerance) := by
  induction c with
  | nil => intro pd; rfl
  | cons g c ih =>
    intro pd
    show (mergeAlong (some (mergeDefaults pd g.defaults)) c).bind _ = _
    rw [ih, nearestTolerance, coalesce_assoc]
    rfl

theorem flatten_mem :
    ∀ (n : Nat) (gs : List Group), sizeOf gs ≤ n →
    ∀ (path : List String) (pd : Option Defaults) (ft : FlatTest),
      ft ∈ flattenGroups gs path pd →
      ∃ c t md, Chain gs c ∧ ChainTest c t ∧ mergeAlong pd c = some md
        ∧ ft = resolveTest t (path ++ c.map Group.name) md := by
  intro n
  induction n with
  | zero =>
    intro gs hs
    exfalso
    cases gs with
    | nil => simp at hs
    | cons g r =>
      simp at hs
  | succ n ih =>
    intro gs hs path pd ft hm
    cases gs with
    | nil =>
      rw [flattenGroups] at hm
      cases hm
    | cons g rest =>
      rw [flattenGroups] at hm
      rcases List.mem_append.mp hm with hm1 | hm2
      · rcases List.mem_append.mp hm1 with hA | hB
        · split at hA
          case h_2 => exact absurd hA (by simp)
          case h_1 gs' hcg =>
            have hsz : sizeOf gs' ≤ n := by
              cases g with
              | mk a b cc d =>
                simp only [Group.childGroups] at hcg
                subst hcg
                simp at hs ⊢
                omega
            obtain ⟨c, t, md, hc, hct, hma, hft⟩ :=
              ih gs' hsz (path ++ [g.name]) (some (mergeDefaults pd g.defaults)) ft hA
            refine ⟨g :: c, t, md,
              .cons g _ gs' c (List.mem_cons_self g rest) hcg hc, ?_, hma, ?_⟩
            · obtain ⟨gl, ts, hgl, hts, htm⟩ := hct
              exact ⟨gl, ts, by rw [getLast?_cons_of_ne_nil g (chain_ne_nil hc), hgl],
                hts, htm⟩
            · rw [hft]
              simp [List.append_assoc]
        · split at hB
          case h_2 => exact absurd hB (by simp)
          case h_1 ts hts =>
            obtain ⟨t, htm, hft⟩ := List.mem_map.mp hB
            exact ⟨[g], t, mergeDefaults pd g.defaults,
              .single g _ (List.mem_cons_self g rest), ⟨g, ts, rfl, hts, htm⟩, rfl,
              hft.symm⟩
      · have hsz : sizeOf rest ≤ n := by simp at hs; omega
        obtain ⟨c, t, md, hc, hct, hma, hft⟩ := ih rest hsz path pd ft hm2
        exact ⟨c, t, md, chain_weaken g hc, hct, hma, hft⟩

/-- C3: every resolved case's effective compare mode is its own
explicit value if present, else the nearest ancestor group's defaults
value, else the inherited (specification root) value, else strict; the
effective tolerance follows the same precedence with no forced default
— absence is preserved. -/
theorem claim_C3 (gs : List Group) (path : List String) (pd : Option Defaults)
    (ft : FlatTest) (h : ft ∈ flattenGroups gs path pd) :
    ∃ c t, Chain gs c ∧ ChainTest c t
      ∧ ft.resolvedCompare
          = (coalesce t.compare
              (coalesce (nearestCompare c) (pd.bind Defaults.compare))).getD .strict
      ∧ ft.resolvedTolerance
          = coalesce t.tolerance
              (coalesce (nearestTolerance c) (pd.bind Defaults.tolerance)) := by
  obtain ⟨c, t, md, hc, hct, hma, hft⟩ := flatten_mem (sizeOf gs) gs le_rfl path pd ft h
  have hcmp : md.compare = coalesce (nearestCompare c) (pd.bind Defaults.compare) := by
    have h3 := mergeAlong_compare c pd
    rw [hma] at h3
    exact h3
  have htol : md.tolerance = coalesce (nearestTolerance c) (pd.bind Defaults.tolerance) := by
    have h3 := mergeAlong_tolerance c pd
    rw [hma] at h3
    exact h3
  refine ⟨c, t, hc, hct, ?_, ?_⟩
  · rw [hft]
    show (coalesce t.compare md.compare).getD .strict = _
    rw [hcmp]
  · rw [hft]
    show coalesce t.tolerance md.tolerance = _
    rw [htol]

theorem claim_C3_witness :
    ((resolveTest { exTestBase with id := "c1" } ["outer", "inner"]
        ⟨some .deep, none⟩) ∈ flattenGroups [exOuter] [] none)
    ∧ ∃ c t, Chain [exOuter] c ∧ ChainTest c t
      ∧ (resolveTest { exTestBase with id := "c1" } ["outer", "inner"]
            ⟨some .deep, none⟩).resolvedCompare
          = (coalesce t.compare
              (coalesce (nearestCompare c) ((none : Option Defaults).bind Defaults.compare))).getD .strict
      ∧ (resolveTest { exTestBase with id := "c1" } ["outer", "inner"]
            ⟨some .deep, none⟩).resolvedTolerance
          = coalesce t.tolerance
              (coalesce (nearestTolerance c) ((none : Option Defaults).bind Defaults.tolerance)) := by
  have hmem : (resolveTest { exTestBase with id := "c1" } ["outer", "inner"]
      ⟨some .deep, none⟩) ∈ flattenGroups [exOuter] [] none := by
    rw [flattenGroups, flattenGroups]
    simp [exOuter, exInner, Group.childGroups, Group.tests, Group.name, Group.defaults,
      mergeDefaults, coalesce, flattenGroups]
  exact ⟨hmem, claim_C3 [exOuter] [] none _ hmem⟩

/-- C4: flattening is a pure function whose output places the resolved
cases of a group's descendant groups before the group's own direct
cases, preserving document order otherwise (the defining order
equation), and every resolved case's groupPath is the ordered sequence
of ancestor group names from the root down to its immediate parent. -/
theorem claim_C4 :
    (∀ g rest path pd,
      flattenGroups (g :: rest) path pd =
        (match g.childGroups with
         | some gs => flattenGroups gs (path ++ [g.name]) (some (mergeDefaults pd g.defaults))
         | none => [])
        ++ (match g.tests with
            | some ts => ts.map (fun t => resolveTest t (path ++ [g.name]) (mergeDefaults pd g.defaults))
            | none => [])
        ++ flattenGroups rest path pd)
    ∧ (∀ gs path pd ft, ft ∈ flattenGroups gs path pd →
        ∃ c t, Chain gs c ∧ ChainTest c t ∧ ft.toTest = t
          ∧ ft.groupPath = path ++ c.map Group.name) := by
  constructor
  · intro g rest path pd
    rw [flattenGroups]
    cases hcg : g.childGroups <;> cases hts : g.tests <;> simp [hcg, hts]
  · intro gs path pd ft h
    obtain ⟨c, t, md, hc, hct, hma, hft⟩ := flatten_mem (sizeOf gs) gs le_rfl path pd ft h
    exact ⟨c, t, hc, hct, by rw [hft]; rfl, by rw [hft]; rfl⟩

theorem claim_C4_witness :
    ((resolveTest { exTestBase with id := "c1" } ["outer", "inner"]
        ⟨some .deep, none⟩) ∈ flattenGroups [exOuter] [] none)
    ∧ ∃ c t, Chain [exOuter] c ∧ ChainTest c t
      ∧ (resolveTest { exTestBase with id := "c1" } ["outer", "inner"]
          ⟨some .deep, none⟩).toTest = t
      ∧ (resolveTest { exTestBase with id := "c1" } ["outer", "inner"]
          ⟨some .deep, none⟩).groupPath = [] ++ c.map Group.name := by
  have hmem : (resolveTest { exTestBase with id := "c1" } ["outer", "inner"]
      ⟨some .deep, none⟩) ∈ flattenGroups [exOuter] [] none := by
    rw [flattenGroups, flattenGroups]
    simp [exOuter, exInner, Group.childGroups, Group.tests, Group.name, Group.defaults,
      mergeDefaults, coalesce, flattenGroups]
  exact ⟨hmem, claim_C4.2 [exOuter] [] none _ hmem⟩

end GCSF
